import Mathlib

/-!
Verification of the local-gpt RAG backend.

Shallow embedding of `backend/rag_routes.py` (`_clean_text`, `_chunk_text`),
`backend/vectorstore.py` (`add_docs`, `query`, `recent_chunks`) and
`backend/file_extract.py` (`_safe_decode`, the PDF extraction path of
`extract_text_from_file`).

Conventions: text is modelled as `List Char`, byte strings as `List Nat`,
Python `int` sizes as `Nat`, and user-supplied counts that may be negative
(the `k` of `query` / `recent_chunks`) as `Int`.  The `_chunk_text` while-loop
is not structurally terminating, so it is run with explicit fuel: a `none`
result means the Python loop has not finished within the given fuel, and a
`some` result is the value the Python loop returns (the loop is
deterministic, so the value is fuel-independent once reached).  External
collaborators (the chroma index, the embedding function, PyMuPDF, pdfminer,
chardet) are modelled at their interface boundary as explicit parameters or
oracle data, exactly as the code consumes them; Python calls that can raise
are modelled with `Except Unit`.
-/

namespace LocalGpt

/-- The characters removed by Python `str.strip()` (ASCII whitespace; the
repository's cleaned text only ever carries `' '`, `'\t'`, `'\n'`, `'\r'`). -/
def isSpaceChar (c : Char) : Bool :=
  c = ' ' || c = '\t' || c = '\n' || c = '\r' || c = '\x0b' || c = '\x0c'

/-- Python `s.strip()`: drop leading and trailing whitespace. -/
def strip_list (l : List Char) : List Char :=
  ((l.dropWhile isSpaceChar).reverse.dropWhile isSpaceChar).reverse

/-- Python `s.split(sep)` for a one-character separator:
`"".split(sep) = [""]`, and every occurrence of `sep` starts a new part. -/
def py_split (sep : Char) : List Char → List (List Char)
  | [] => [[]]
  | c :: rest =>
    if c = sep then [] :: py_split sep rest
    else
      match py_split sep rest with
      | [] => [[c]]
      | p :: ps => (c :: p) :: ps

/-- Python `sep.join(parts)` for a one-character separator. -/
def py_join (sep : Char) : List (List Char) → List Char
  | [] => []
  | [p] => p
  | p :: ps => p ++ sep :: py_join sep ps

/-- Python `s.replace("\r\n", "\n")` (left-to-right, non-overlapping). -/
def replace_crlf : List Char → List Char
  | [] => []
  | [c] => [c]
  | c :: d :: rest =>
    if c = '\r' ∧ d = '\n' then '\n' :: replace_crlf rest
    else c :: replace_crlf (d :: rest)

/-- `_clean_text` from `backend/rag_routes.py`: falsy input gives `""`;
otherwise normalize `\r\n` and `\r` to `\n`, strip every line, join the lines
with `\n` and strip the result. -/
def clean_text (s : List Char) : List Char :=
  if s = [] then []
  else
    let s1 := (replace_crlf s).map (fun c => if c = '\r' then '\n' else c)
    strip_list (py_join '\n' ((py_split '\n' s1).map strip_list))

/-- Python slice `text[s:e]` for the non-negative indices used by the
chunker. -/
def py_slice (l : List Char) (s e : Nat) : List Char := (l.take e).drop s

/-- Python `text.rfind(ch, s, e)` scanning indices `e-1, e-2, …, s`;
`none` plays the role of `-1`.  The second `Nat` argument is the exclusive
upper bound of the scan. -/
def rfind_from (text : List Char) (ch : Char) (s : Nat) : Nat → Option Nat
  | 0 => none
  | e + 1 =>
    if s ≤ e ∧ text.getD e 'A' = ch then some e
    else rfind_from text ch s e

/-- Python `text.rfind(ch, s, e)` (upper bound clamped to the text length,
as `str.rfind` does). -/
def rfind_char (text : List Char) (ch : Char) (s e : Nat) : Option Nat :=
  rfind_from text ch s (min e text.length)

/-- `cut = max(cut_nl, cut_sp)` from `_chunk_text`, where `none` stands for
the `-1` of a failed `rfind`. -/
def cut_pos : Option Nat → Option Nat → Option Nat
  | none, none => none
  | some a, none => some a
  | none, some b => some b
  | some a, some b => some (max a b)

/-- The window-end computation of one `_chunk_text` iteration
(`backend/rag_routes.py` lines 40-46): `end = min(n, start + chunk_size)`;
if `end < n`, move `end` back to the nearest newline/space cut `cut` when
`cut != -1 and cut > start + 100`. -/
def window_end (text : List Char) (chunk_size s : Nat) : Nat :=
  let n := text.length
  let e0 := min n (s + chunk_size)
  if e0 < n then
    match cut_pos (rfind_char text '\n' s e0) (rfind_char text ' ' s e0) with
    | some c => if s + 100 < c then c else e0
    | none => e0
  else e0

/-- Modelled from the spec wording of the window rule (for comparison with
`window_end`): accept the backward cut when it leaves **at least 100**
characters in the chunk, i.e. when `cut - start ≥ 100`. -/
def window_end_spec (text : List Char) (chunk_size s : Nat) : Nat :=
  let n := text.length
  let e0 := min n (s + chunk_size)
  if e0 < n then
    match cut_pos (rfind_char text '\n' s e0) (rfind_char text ' ' s e0) with
    | some c => if s + 100 ≤ c then c else e0
    | none => e0
  else e0

/-- Result of one iteration of the `_chunk_text` while-loop: either the loop
breaks/exits with the final chunk list, or it continues with a new start
position and accumulator. -/
inductive StepRes where
  | done (chunks : List (List Char))
  | cont (start : Nat) (chunks : List (List Char))
deriving DecidableEq

/-- The conditional emission of `_chunk_text` (lines 47-49): append the
stripped window only when its length is at least `min_chunk_chars`. -/
def emit (min_chunk_chars : Nat) (acc : List (List Char)) (ck : List Char) :
    List (List Char) :=
  if min_chunk_chars ≤ ck.length then acc ++ [ck] else acc

/-- One iteration of the `_chunk_text` loop (`backend/rag_routes.py` lines
39-54): take the window `[s, end)`, strip it, emit it when its length is at
least `min_chunk_chars`, break when the window reached the end of the text,
otherwise advance `start` to `max(end - overlap, 0)` (natural subtraction)
and break when more than 50000 chunks have been emitted. -/
def chunk_step (text : List Char) (chunk_size overlap min_chunk_chars : Nat)
    (s : Nat) (acc : List (List Char)) : StepRes :=
  let n := text.length
  if s < n then
    let e := window_end text chunk_size s
    let ck := strip_list (py_slice text s e)
    let acc' := emit min_chunk_chars acc ck
    if n ≤ e then .done acc'
    else
      let s' := e - overlap
      if 50000 < acc'.length then .done acc' else .cont s' acc'
  else .done acc

/-- The `_chunk_text` while-loop, run with explicit fuel. -/
def chunk_loop (text : List Char) (chunk_size overlap min_chunk_chars : Nat) :
    Nat → Nat → List (List Char) → Option (List (List Char))
  | 0, _, _ => none
  | fuel + 1, s, acc =>
    match chunk_step text chunk_size overlap min_chunk_chars s acc with
    | .done out => some out
    | .cont s' acc' => chunk_loop text chunk_size overlap min_chunk_chars fuel s' acc'

/-- `_chunk_text` from `backend/rag_routes.py`: clean the text, return `[]`
for empty cleaned text, otherwise run the chunking loop from position 0.
`some` means the Python loop finished within the given fuel. -/
def chunk_text (text : List Char) (chunk_size overlap min_chunk_chars fuel : Nat) :
    Option (List (List Char)) :=
  let t := clean_text text
  if t = [] then some []
  else chunk_loop t chunk_size overlap min_chunk_chars fuel 0 []

/-! ### `backend/vectorstore.py` -/

/-- The metadata dict attached to a stored chunk.  The code only ever reads
the keys `"filename"` (`m.get("filename")` / `m.get("filename", "")`) and
`"chunk"` (`m.get("chunk", 0)`), each of which may be absent. -/
structure Metadata where
  filename : Option (List Char) := none
  chunk : Option Nat := none
deriving DecidableEq

/-- A record persisted inside a chroma collection by `col.add(documents,
metadatas, ids)`: a unique id, the document text and its metadata.  (The
embedding vector is computed by the opaque embedding function and never read
back by this code, so it is not carried here; its computation is counted in
`VSState.embedCount`.) -/
structure StoredRecord where
  rid : Nat
  doc : List Char
  meta : Metadata
deriving DecidableEq

/-- The process-wide vector-store state: the per-name collections (in
creation order, each holding its records in append order — the storage order
that `col.get` reports), a fresh-id supply standing for `uuid.uuid4()`, and a
count of embeddings computed so far by the opaque embedding function. -/
structure VSState where
  collections : List (List Char × List StoredRecord)
  nextId : Nat
  embedCount : Nat
deriving DecidableEq

/-- Look up the records of a named collection, if it exists. -/
def lookup_col (s : VSState) (name : List Char) : Option (List StoredRecord) :=
  (s.collections.find? (fun p => p.1 = name)).map (fun p => p.2)

/-- `_get_collection`: first reference creates the (empty) collection,
later references reuse it. -/
def get_collection (s : VSState) (name : List Char) : VSState :=
  match lookup_col s name with
  | some _ => s
  | none => { s with collections := s.collections ++ [(name, [])] }

/-- The records of a collection in storage (append) order; `[]` if the
collection does not exist. -/
def get_records (s : VSState) (name : List Char) : List StoredRecord :=
  (lookup_col s name).getD []

/-- Replace the record list of an existing collection. -/
def set_records (s : VSState) (name : List Char) (recs : List StoredRecord) : VSState :=
  { s with collections :=
      s.collections.map (fun p => if p.1 = name then (p.1, recs) else p) }

/-- The metadata normalization of `add_docs` (`backend/vectorstore.py` lines
52-58): `None` becomes a list of empty dicts, a short list is padded with
empty dicts, a long list is truncated. -/
def pad_truncate (metadatas : Option (List Metadata)) (n : Nat) : List Metadata :=
  match metadatas with
  | none => List.replicate n {}
  | some ms =>
    if ms.length = n then ms
    else if ms.length < n then ms ++ List.replicate (n - ms.length) {}
    else ms.take n

/-- The records persisted by `col.add(documents=texts, metadatas=ms,
ids=ids)`: one record per aligned (id, text, metadata) triple, appended in
order.  `add_docs` always calls this with `ms.length = texts.length`. -/
def mk_records : Nat → List (List Char) → List Metadata → List StoredRecord
  | _, [], _ => []
  | _, _ :: _, [] => []
  | i, t :: ts, m :: ms => ⟨i, t, m⟩ :: mk_records (i + 1) ts ms

/-- `add_docs` from `backend/vectorstore.py`: an empty chunk list returns 0
without touching the store; otherwise the collection is created/fetched, the
metadata list is padded/truncated to the chunk count, one id per chunk is
generated, the records are appended (one embedding computed per chunk), and
the chunk count is returned. -/
def add_docs (texts : List (List Char)) (metadatas : Option (List Metadata))
    (name : List Char) (s : VSState) : Nat × VSState :=
  if texts.isEmpty then (0, s)
  else
    let s1 := get_collection s name
    let ms := pad_truncate metadatas texts.length
    let recs := mk_records s.nextId texts ms
    let s2 := set_records s1 name (get_records s1 name ++ recs)
    (texts.length,
      { s2 with nextId := s.nextId + texts.length,
                embedCount := s.embedCount + texts.length })

/-- The per-chunk metadata built by the upload route
(`backend/rag_routes.py` line 187):
`[{"filename": fn, "chunk": i} for i in range(n)]`. -/
def ingest_metas (fn : List Char) (n : Nat) : List Metadata :=
  (List.range n).map (fun i => { filename := some fn, chunk := some i })

/-- An element of the list returned by `recent_chunks`:
`{"text": d, "metadata": m}`. -/
structure Hit where
  text : List Char
  metadata : Metadata
deriving DecidableEq

/-- The sort key of `recent_chunks`: `h["metadata"].get("chunk", 0)`. -/
def hit_key (h : Hit) : Nat := h.metadata.chunk.getD 0

/-- Stable insertion used to model Python's stable `list.sort(key=...)`:
an element is placed before the first strictly larger key, so elements with
equal keys keep their original relative order. -/
def insert_hit (x : Hit) : List Hit → List Hit
  | [] => [x]
  | y :: ys => if hit_key x ≤ hit_key y then x :: y :: ys else y :: insert_hit x ys

/-- Stable sort by `hit_key` (extensionally equal to Python's stable
`hits.sort(key=lambda h: h["metadata"].get("chunk", 0))`). -/
def sort_hits : List Hit → List Hit
  | [] => []
  | x :: xs => insert_hit x (sort_hits xs)

/-- `recent_chunks` from `backend/vectorstore.py`: dump the collection in
storage order, take the last filename with a non-empty occurrence (falling
back to the very last filename), keep the records bearing exactly that
filename, sort them stably by chunk ordinal and return the first
`max(1, k)`. -/
def recent_chunks (col : List StoredRecord) (k : Int) : List Hit :=
  let metas := col.map (fun r => r.meta)
  let docs := col.map (fun r => r.doc)
  if metas.isEmpty || docs.isEmpty then []
  else
    let filenames := metas.map (fun m => m.filename.getD [])
    let last : List Char := (filenames.reverse.find? (fun fn => !fn.isEmpty)).getD (filenames.getLastD [])
    let hits := (metas.zip docs).filterMap (fun md =>
      if md.1.filename = some last then some (⟨md.2, md.1⟩ : Hit) else none)
    (sort_hits hits).take (max 1 k).toNat

/-- The response of the opaque chroma backend to
`col.query(query_texts=[q], n_results=n, include=[...])`, restricted to the
single query text: the inner lists `res["documents"][0]`,
`res["metadatas"][0]`, `res["distances"][0]`.  Distances are modelled as
rationals (an ordered field stands in for the backend's similarity
scores). -/
structure QueryResponse where
  docs : List (List Char)
  metas : List Metadata
  dists : List Rat
deriving DecidableEq

/-- One element of the `"results"` list built by `query`. -/
structure QueryHit where
  text : List Char
  metadata : Metadata
  distance : Option Rat
deriving DecidableEq

/-- The result-assembly loop of `query` (`backend/vectorstore.py` lines
71-81): one output entry per returned document, with metadata defaulting to
`{}` and distance to `None` when the parallel lists are shorter. -/
def query_build (res : QueryResponse) : List QueryHit :=
  (List.range res.docs.length).map (fun i =>
    { text := res.docs.getD i []
      metadata := if i < res.metas.length then res.metas.getD i {} else {}
      distance := if i < res.dists.length then some (res.dists.getD i 0) else none })

/-- `query` from `backend/vectorstore.py`: the opaque backend (the chroma
collection together with its embedding function) is asked for
`n_results = max(1, int(k))` nearest records to the query text, and the
response is assembled into the results list. -/
def query (backend : List Char → Nat → QueryResponse) (query_text : List Char)
    (k : Int) : List QueryHit :=
  query_build (backend query_text (max 1 k).toNat)

/-! ### `backend/file_extract.py` -/

/-- Latin-1 decoding of a byte string: every byte maps to the code point of
the same value, so it is total (`b.decode("latin-1", errors="ignore")` never
raises). -/
def latin1_decode (b : List Nat) : List Char := b.map Char.ofNat

/-- Worker for `utf8_decode_ignore`: the first argument is a structural
bound on the number of bytes still to be consumed (every step consumes at
least one byte, so a bound equal to the list length is exact). -/
def utf8_go : Nat → List Nat → List Char
  | 0, _ => []
  | _, [] => []
  | fuel + 1, b :: rest =>
    if b < 0x80 then Char.ofNat b :: utf8_go fuel rest
    else if 0xC2 ≤ b ∧ b < 0xE0 then
      match rest with
      | b2 :: rest2 =>
        if 0x80 ≤ b2 ∧ b2 < 0xC0 then
          Char.ofNat ((b % 0x20) * 0x40 + b2 % 0x40) :: utf8_go fuel rest2
        else utf8_go fuel rest
      | [] => []
    else if 0xE0 ≤ b ∧ b < 0xF0 then
      match rest with
      | b2 :: b3 :: rest3 =>
        if (0x80 ≤ b2 ∧ b2 < 0xC0) ∧ (0x80 ≤ b3 ∧ b3 < 0xC0) then
          Char.ofNat ((b % 0x10) * 0x1000 + (b2 % 0x40) * 0x40 + b3 % 0x40) ::
            utf8_go fuel rest3
        else utf8_go fuel rest
      | _ => utf8_go fuel rest
    else if 0xF0 ≤ b ∧ b < 0xF5 then
      match rest with
      | b2 :: b3 :: b4 :: rest4 =>
        if (0x80 ≤ b2 ∧ b2 < 0xC0) ∧ (0x80 ≤ b3 ∧ b3 < 0xC0) ∧ (0x80 ≤ b4 ∧ b4 < 0xC0) then
          Char.ofNat ((b % 8) * 0x40000 + (b2 % 0x40) * 0x1000 +
              (b3 % 0x40) * 0x40 + b4 % 0x40) :: utf8_go fuel rest4
        else utf8_go fuel rest
      | _ => utf8_go fuel rest
    else utf8_go fuel rest

/-- UTF-8 decoding with `errors="ignore"`: well-formed sequences are
decoded, bytes that do not start a well-formed sequence are dropped.  Total
by construction — `b.decode("utf-8", errors="ignore")` never raises.  (Code
points that are not Lean scalar values decode to `Char.ofNat`'s default;
nothing in the claims depends on the decoded content.) -/
def utf8_decode_ignore (l : List Nat) : List Char := utf8_go l.length l

/-- `b.decode("utf-8", errors="ignore")` as the Python call inside the first
`try` of `_safe_decode`: with invalid-byte tolerance it is total, so the
modelled call always returns `ok`. -/
def py_decode_utf8_ignore (b : List Nat) : Except Unit (List Char) :=
  .ok (utf8_decode_ignore b)

/-- `_safe_decode` from `backend/file_extract.py`, with the possible raise
of each stage made explicit.  `chardet_stage` models the body of the second
`try` block (`import chardet; enc = ...; return b.decode(enc, ...)`): an
arbitrary computation that may raise (`chardet` missing, detection or decode
failure).  Any of its exceptions falls through to the Latin-1 decode, which
is total. -/
def safe_decode (chardet_stage : List Nat → Except Unit (List Char))
    (b : List Nat) : Except Unit (List Char) :=
  match py_decode_utf8_ignore b with
  | .ok s => .ok s
  | .error _ =>
    match chardet_stage b with
    | .ok s => .ok s
    | .error _ => .ok (latin1_decode b)

/-- One page as seen by the PyMuPDF loop of `_read_pdf_pymupdf`:
the page's extracted text (`page.get_text("text") or ""`) and the outcome of
`page.get_images(full=True)` — `none` when that call raises, otherwise
whether the image list was non-empty. -/
structure PdfPage where
  text : List Char
  images : Option Bool
deriving DecidableEq

/-- The PyMuPDF oracle for one document: the engine is unavailable
(`import fitz` raises), opening/iterating raises (after `page_count` may
have been read), or the pages are delivered. -/
inductive PyMuPdf where
  | unavailable
  | failed (pages : Nat)
  | ok (pages : List PdfPage)
deriving DecidableEq

/-- `_read_pdf_pymupdf` from `backend/file_extract.py`: returns
`(text, is_likely_scanned, pages)`; a page with no selectable text whose
image list is non-empty sets the scanned flag; any failure degrades to empty
text. -/
def read_pdf_pymupdf : PyMuPdf → List Char × Bool × Nat
  | .unavailable => ([], false, 0)
  | .failed pages => ([], false, pages)
  | .ok pages =>
    (strip_list (py_join '\n' (pages.map (fun p => p.text))),
     pages.any (fun p => (strip_list p.text).isEmpty && p.images.getD false),
     pages.length)

/-- `_read_pdf_pdfminer` from `backend/file_extract.py`: the pdfminer oracle
is `none` when `import` or `extract_text` raises (then the fallback yields
`("", 0)`), otherwise the raw extracted text, which is stripped. -/
def read_pdf_pdfminer : Option (List Char) → List Char × Nat
  | none => ([], 0)
  | some t => (strip_list t, 0)

/-- The metadata dict of `extract_text_from_file`. -/
structure ExtractMeta where
  ext : List Char
  note : List Char
  engine : List Char
  pages : Nat
  chars : Nat
deriving DecidableEq

def note_scanned : List Char := "pdf likely scanned (no selectable text)".toList

def note_fallback : List Char := "parsed by pdfminer (fallback)".toList

/-- The `ext == ".pdf"` branch of `extract_text_from_file`
(`backend/file_extract.py` lines 159-187), including the common tail
(`txt = (txt or "").strip(); meta["chars"] = len(txt)`).  Never raises: both
engines absorb their own failures. -/
def extract_pdf (mu : PyMuPdf) (pm : Option (List Char)) : List Char × ExtractMeta :=
  let r := read_pdf_pymupdf mu
  let txt := r.1
  let scanned := r.2.1
  let pages := r.2.2
  let meta0 : ExtractMeta :=
    { ext := ".pdf".toList, note := [], engine := "pymupdf".toList
      pages := pages, chars := 0 }
  let meta1 := if scanned ∧ txt = [] then { meta0 with note := note_scanned } else meta0
  let tm :=
    if txt = [] then
      let fb := (read_pdf_pdfminer pm).1
      if fb ≠ [] then
        (fb, { meta1 with engine := "pdfminer".toList
                          note := if meta1.note = [] then note_fallback else meta1.note })
      else (txt, meta1)
    else (txt, meta1)
  let final := strip_list tm.1
  (final, { tm.2 with chars := final.length })

/-! ### Concrete inputs used by counterexamples and witnesses -/

/-- Text whose last space inside the first window sits exactly 100
characters after the window start. -/
def c3_text : List Char := List.replicate 100 'a' ++ ' ' :: List.replicate 60 'b'

/-- Text whose last space inside the first window sits 105 characters after
the window start — more than 100, but within `overlap` of it. -/
def c2_text : List Char := List.replicate 105 'a' ++ ' ' :: List.replicate 50 'b'

/-- A backend satisfying the interface contract (at most `n` results,
aligned lists, non-decreasing distances) that returns one record whenever
`n ≥ 1`. -/
def cex_backend : List Char → Nat → QueryResponse :=
  fun _ n => if n = 0 then ⟨[], [], []⟩ else ⟨[['x']], [{}], [0]⟩

/-- The store obtained by ingesting a one-chunk document `a.txt` and then a
one-chunk document `b.txt` into collection `docs` of a fresh store. -/
def c1_state : VSState :=
  (add_docs ["beta".toList] (some (ingest_metas "b.txt".toList 1)) "docs".toList
    (add_docs ["alpha".toList] (some (ingest_metas "a.txt".toList 1)) "docs".toList
      ⟨[], 0, 0⟩).2).2

set_option maxRecDepth 100000

/-! ### General list lemmas -/

lemma length_dropWhile_le (p : Char → Bool) (l : List Char) :
    (l.dropWhile p).length ≤ l.length := by
  induction l with
  | nil => simp
  | cons a l ih =>
    simp only [List.dropWhile_cons]
    split
    · exact le_trans ih (by simp)
    · simp

lemma getD_replicate {α : Type} (a d : α) :
    ∀ (n i : Nat), i < n → (List.replicate n a).getD i d = a := by
  intro n
  induction n with
  | zero => intro i h; omega
  | succ n ih =>
    intro i h
    cases i with
    | zero => simp [List.replicate_succ]
    | succ i => simpa [List.replicate_succ] using ih i (by omega)

/-! ### `rfind` characterization -/

lemma rfind_from_eq_none (text : List Char) (ch : Char) (s : Nat) :
    ∀ e, rfind_from text ch s e = none ↔
      ∀ j, s ≤ j → j < e → text.getD j 'A' ≠ ch := by
  intro e
  induction e with
  | zero => simp [rfind_from]
  | succ e ih =>
    simp only [rfind_from]
    split
    · rename_i hcond
      constructor
      · intro h; cases h
      · intro h
        exact absurd hcond.2 (h e hcond.1 (by omega))
    · rename_i hcond
      rw [ih]
      constructor
      · intro h j hsj hje
        rcases Nat.lt_succ_iff_lt_or_eq.mp hje with hje' | rfl
        · exact h j hsj hje'
        · intro hch; exact hcond ⟨hsj, hch⟩
      · intro h j hsj hje
        exact h j hsj (by omega)

lemma rfind_from_eq_some (text : List Char) (ch : Char) (s : Nat) :
    ∀ e c, rfind_from text ch s e = some c →
      s ≤ c ∧ c < e ∧ text.getD c 'A' = ch ∧
        ∀ j, c < j → j < e → text.getD j 'A' ≠ ch := by
  intro e
  induction e with
  | zero => intro c h; cases h
  | succ e ih =>
    intro c h
    rw [rfind_from] at h
    split at h
    · rename_i hcond
      cases h
      exact ⟨hcond.1, by omega, hcond.2, fun j h1 h2 => by omega⟩
    · rename_i hcond
      obtain ⟨h1, h2, h3, h4⟩ := ih c h
      refine ⟨h1, by omega, h3, ?_⟩
      intro j hcj hje
      rcases Nat.lt_succ_iff_lt_or_eq.mp hje with hje' | rfl
      · exact h4 j hcj hje'
      · intro hch
        exact hcond ⟨by omega, hch⟩

/-! ### C3: the backward-cut acceptance rule of `_chunk_text` -/

lemma window_end_eq_of_lt {text : List Char} {chunk_size s : Nat}
    (h : s + chunk_size < text.length) :
    window_end text chunk_size s =
      match cut_pos (rfind_from text '\n' s (s + chunk_size))
                    (rfind_from text ' ' s (s + chunk_size)) with
      | some c => if s + 100 < c then c else s + chunk_size
      | none => s + chunk_size := by
  have hmin : text.length ⊓ (s + chunk_size) = s + chunk_size := by omega
  have hmin' : (s + chunk_size) ⊓ text.length = s + chunk_size := by omega
  simp only [window_end, rfind_char]
  rw [hmin, hmin', if_pos h]

/-- **C3 (amended)** — For every window of the chunker that does not reach
the end of the text (`start + chunk_size < |text|`), the window end is the
position of the nearest newline or space searching backward from
`start + chunk_size` provided that cut point lies **strictly more than 100**
characters past `start` (i.e. leaves at least 101 characters in the chunk);
otherwise — including a cut at exactly `start + 100` — the hard boundary
`start + chunk_size` is kept. -/
theorem windowEnd_cut_rule_amended (text : List Char) (chunk_size s : Nat)
    (h : s + chunk_size < text.length) :
    (∃ c, s ≤ c ∧ c < s + chunk_size ∧
        (text.getD c 'A' = '\n' ∨ text.getD c 'A' = ' ') ∧
        (∀ j, c < j → j < s + chunk_size →
          ¬(text.getD j 'A' = '\n' ∨ text.getD j 'A' = ' ')) ∧
        window_end text chunk_size s = if s + 100 < c then c else s + chunk_size)
    ∨ ((∀ j, s ≤ j → j < s + chunk_size →
          ¬(text.getD j 'A' = '\n' ∨ text.getD j 'A' = ' ')) ∧
        window_end text chunk_size s = s + chunk_size) := by
  rw [window_end_eq_of_lt h]
  rcases hnl : rfind_from text '\n' s (s + chunk_size) with _ | a <;>
    rcases hsp : rfind_from text ' ' s (s + chunk_size) with _ | b
  · refine Or.inr ⟨?_, rfl⟩
    intro j hsj hje hch
    rcases hch with hch | hch
    · exact (rfind_from_eq_none text '\n' s (s + chunk_size)).mp hnl j hsj hje hch
    · exact (rfind_from_eq_none text ' ' s (s + chunk_size)).mp hsp j hsj hje hch
  · obtain ⟨h1, h2, h3, h4⟩ := rfind_from_eq_some text ' ' s (s + chunk_size) b hsp
    refine Or.inl ⟨b, h1, h2, Or.inr h3, ?_, rfl⟩
    intro j hbj hje hch
    rcases hch with hch | hch
    · exact (rfind_from_eq_none text '\n' s (s + chunk_size)).mp hnl j (by omega) hje hch
    · exact h4 j hbj hje hch
  · obtain ⟨h1, h2, h3, h4⟩ := rfind_from_eq_some text '\n' s (s + chunk_size) a hnl
    refine Or.inl ⟨a, h1, h2, Or.inl h3, ?_, rfl⟩
    intro j haj hje hch
    rcases hch with hch | hch
    · exact h4 j haj hje hch
    · exact (rfind_from_eq_none text ' ' s (s + chunk_size)).mp hsp j (by omega) hje hch
  · obtain ⟨ha1, ha2, ha3, ha4⟩ := rfind_from_eq_some text '\n' s (s + chunk_size) a hnl
    obtain ⟨hb1, hb2, hb3, hb4⟩ := rfind_from_eq_some text ' ' s (s + chunk_size) b hsp
    refine Or.inl ⟨max a b, by omega, by omega, ?_, ?_, rfl⟩
    · rcases Nat.le_total a b with hab | hab
      · rw [Nat.max_eq_right hab]; exact Or.inr hb3
      · rw [Nat.max_eq_left hab]; exact Or.inl ha3
    · intro j hj hje hch
      rcases hch with hch | hch
      · exact ha4 j (by omega) hje hch
      · exact hb4 j (by omega) hje hch

/-- **C3 (counterexample)** — In `c3_text` the nearest backward cut of the
first window (`chunk_size = 150`) is the space at index 100, exactly 100
characters past the window start: the claim's rule ("accept when it leaves
at least 100 characters") takes the cut at 100, but the code keeps the hard
boundary 150. -/
theorem windowEnd_boundary_100_counterexample :
    window_end c3_text 150 0 = 150 ∧ window_end_spec c3_text 150 0 = 100 := by
  constructor <;> rfl

/-- Witness for `windowEnd_cut_rule_amended` at a concrete window. -/
theorem windowEnd_cut_rule_amended_witness :
    (∃ c, 0 ≤ c ∧ c < 0 + 150 ∧
        (c3_text.getD c 'A' = '\n' ∨ c3_text.getD c 'A' = ' ') ∧
        (∀ j, c < j → j < 0 + 150 →
          ¬(c3_text.getD j 'A' = '\n' ∨ c3_text.getD j 'A' = ' ')) ∧
        window_end c3_text 150 0 = if 0 + 100 < c then c else 0 + 150)
    ∨ ((∀ j, 0 ≤ j → j < 0 + 150 →
          ¬(c3_text.getD j 'A' = '\n' ∨ c3_text.getD j 'A' = ' ')) ∧
        window_end c3_text 150 0 = 0 + 150) :=
  windowEnd_cut_rule_amended c3_text 150 0 (by decide)

/-! ### C2: loop advance and termination of `_chunk_text` -/

lemma window_end_eq_of_ge {text : List Char} {chunk_size s : Nat}
    (h : text.length ≤ s + chunk_size) :
    window_end text chunk_size s = text.length := by
  simp only [window_end]
  have hmin : text.length ⊓ (s + chunk_size) = text.length := by omega
  rw [hmin]
  simp

lemma emit_length_le (mc : Nat) (acc : List (List Char)) (ck : List Char) :
    (emit mc acc ck).length ≤ acc.length + 1 := by
  rw [emit]
  split <;> simp

lemma chunk_step_cont {text : List Char} {cs ov mc s : Nat}
    {acc : List (List Char)} {s' : Nat} {acc' : List (List Char)}
    (h : chunk_step text cs ov mc s acc = .cont s' acc') :
    s < text.length ∧ window_end text cs s < text.length ∧
    s' = window_end text cs s - ov ∧ acc'.length ≤ 50000 ∧
    acc'.length ≤ acc.length + 1 := by
  simp only [chunk_step] at h
  split at h
  · rename_i hs
    split at h
    · cases h
    · rename_i he
      split at h
      · cases h
      · rename_i hlen
        cases h
        exact ⟨hs, by omega, rfl, by omega, emit_length_le _ _ _⟩
  · cases h

lemma chunk_step_done_len {text : List Char} {cs ov mc s : Nat}
    {acc : List (List Char)} {out : List (List Char)}
    (h : chunk_step text cs ov mc s acc = .done out) :
    out.length ≤ acc.length + 1 := by
  simp only [chunk_step] at h
  split at h
  · split at h
    · cases h
      exact emit_length_le _ _ _
    · split at h
      · cases h
        exact emit_length_le _ _ _
      · cases h
  · cases h
    omega

lemma window_end_cases (text : List Char) (cs s : Nat) :
    window_end text cs s = min text.length (s + cs)
    ∨ s + 100 < window_end text cs s := by
  by_cases h : s + cs < text.length
  · rw [window_end_eq_of_lt h]
    rcases hc : cut_pos (rfind_from text '\n' s (s + cs))
        (rfind_from text ' ' s (s + cs)) with _ | c
    · left
      show s + cs = min text.length (s + cs)
      omega
    · by_cases hcut : s + 100 < c
      · right
        show s + 100 < if s + 100 < c then c else s + cs
        rw [if_pos hcut]
        exact hcut
      · left
        show (if s + 100 < c then c else s + cs) = min text.length (s + cs)
        rw [if_neg hcut]
        omega
  · rw [window_end_eq_of_ge (by omega)]
    left; omega

lemma chunk_step_progress {text : List Char} {cs ov mc s : Nat}
    {acc : List (List Char)} {s' : Nat} {acc' : List (List Char)}
    (hov : ov ≤ 100) (hcs : ov < cs)
    (h : chunk_step text cs ov mc s acc = .cont s' acc') : s < s' := by
  obtain ⟨h1, h2, h3, _, _⟩ := chunk_step_cont h
  rcases window_end_cases text cs s with hc | hc
  · omega
  · omega

lemma chunk_loop_isSome (text : List Char) (cs ov mc : Nat)
    (hov : ov ≤ 100) (hcs : ov < cs) :
    ∀ fuel s acc, text.length ≤ s + fuel → 1 ≤ fuel →
      (chunk_loop text cs ov mc fuel s acc).isSome = true := by
  intro fuel
  induction fuel with
  | zero => intro s acc _ h1; omega
  | succ fuel ih =>
    intro s acc hlen _
    rw [chunk_loop]
    cases hstep : chunk_step text cs ov mc s acc with
    | done out => simp
    | cont s' acc' =>
      simp only
      obtain ⟨h1, h2, h3, _, _⟩ := chunk_step_cont hstep
      have hprog : s < s' := chunk_step_progress hov hcs hstep
      have hfuel : 1 ≤ fuel := by
        by_contra hf
        have hf0 : fuel = 0 := by omega
        subst hf0
        omega
      exact ih s' acc' (by omega) hfuel

/-- **C2 (amended)** — Each continuing iteration of the chunking loop
advances the start position to `end - overlap` floored at 0 (natural
subtraction); when moreover `overlap ≤ 100` (and `overlap < chunk_size`) the
advance is strictly forward, and consequently the loop terminates within
`|cleaned text| + 1` iterations.  (With `100 < overlap < chunk_size` the
advance can fail to be strictly forward: see the counterexample.) -/
theorem chunk_advance_amended (chunk_size overlap min_chunk_chars : Nat)
    (hov : overlap ≤ 100) (hcs : overlap < chunk_size) :
    (∀ text s acc s' acc',
        chunk_step text chunk_size overlap min_chunk_chars s acc = .cont s' acc' →
        s' = window_end text chunk_size s - overlap ∧ s < s')
    ∧ (∀ text, (chunk_text text chunk_size overlap min_chunk_chars
          ((clean_text text).length + 1)).isSome = true) := by
  constructor
  · intro text s acc s' acc' h
    exact ⟨(chunk_step_cont h).2.2.1, chunk_step_progress hov hcs h⟩
  · intro text
    rw [chunk_text]
    split
    · rfl
    · exact chunk_loop_isSome _ _ _ _ hov hcs _ 0 [] (by omega) (by omega)

/-- **C2 (counterexample)** — With the parameters `chunk_size = 150`,
`overlap = 120` (which satisfy `overlap < chunk_size`, the claim's only
precondition), the very first iteration on `c2_text` accepts the backward
cut at index 105 and then sets `start = max(105 - 120, 0) = 0`: the new
start is not strictly greater than the previous start 0, refuting the
claimed guarantee of forward progress.  (The same failure occurs with the
default `overlap = 200` whenever the accepted cut lies within `overlap` of
the window start.) -/
theorem chunkStep_no_progress_counterexample :
    chunk_step c2_text 150 120 40 0 [] = .cont 0 [List.replicate 105 'a']
    ∧ 120 < 150 ∧ ¬(0 < 0) :=
  ⟨by decide, by omega, by omega⟩

/-- Witness for `chunk_advance_amended`: the loop terminates on a concrete
text with `overlap = 100 ≤ 100`. -/
theorem chunk_advance_amended_witness :
    (chunk_text "The quick brown fox jumps over the lazy dog".toList 1200 100 40
      ((clean_text "The quick brown fox jumps over the lazy dog".toList).length + 1)).isSome
      = true :=
  (chunk_advance_amended 1200 100 40 (by omega) (by omega)).2 _

/-! ### `clean_text` lemmas -/

lemma strip_list_length_le (l : List Char) : (strip_list l).length ≤ l.length := by
  simp only [strip_list, List.length_reverse]
  calc ((l.dropWhile isSpaceChar).reverse.dropWhile isSpaceChar).length
      ≤ (l.dropWhile isSpaceChar).reverse.length := length_dropWhile_le _ _
    _ = (l.dropWhile isSpaceChar).length := List.length_reverse _
    _ ≤ l.length := length_dropWhile_le _ _

lemma py_join_cons_cons (sep : Char) (p q : List Char) (qs : List (List Char)) :
    py_join sep (p :: q :: qs) = p ++ sep :: py_join sep (q :: qs) := rfl

lemma replace_crlf_length_le : ∀ l : List Char, (replace_crlf l).length ≤ l.length
  | [] => by simp [replace_crlf]
  | [c] => by simp [replace_crlf]
  | c :: d :: rest => by
    rw [replace_crlf]
    split
    · have := replace_crlf_length_le rest
      simp only [List.length_cons]
      omega
    · have := replace_crlf_length_le (d :: rest)
      simp only [List.length_cons] at this ⊢
      omega

lemma py_split_ne_nil (sep : Char) (l : List Char) : py_split sep l ≠ [] := by
  cases l with
  | nil => simp [py_split]
  | cons c rest =>
    rw [py_split]
    split
    · simp
    · split <;> simp

lemma py_join_single (sep : Char) (p : List Char) : py_join sep [p] = p := rfl

lemma py_join_py_split (sep : Char) (l : List Char) :
    py_join sep (py_split sep l) = l := by
  induction l with
  | nil => rfl
  | cons c rest ih =>
    rw [py_split]
    split
    · rename_i hc
      rcases hsplit : py_split sep rest with _ | ⟨q, qs⟩
      · exact absurd hsplit (py_split_ne_nil sep rest)
      · rw [hsplit] at ih
        rw [py_join_cons_cons, List.nil_append, ← ih, hc]
    · rcases hsplit : py_split sep rest with _ | ⟨q, qs⟩
      · exact absurd hsplit (py_split_ne_nil sep rest)
      · rw [hsplit] at ih
        cases qs with
        | nil =>
          rw [py_join_single] at ih
          rw [py_join_single, ih]
        | cons q2 qs2 =>
          rw [py_join_cons_cons] at ih
          rw [py_join_cons_cons, List.cons_append, ih]

lemma py_join_map_strip_length_le (sep : Char) (parts : List (List Char)) :
    (py_join sep (parts.map strip_list)).length ≤ (py_join sep parts).length := by
  induction parts with
  | nil => simp [py_join]
  | cons p ps ih =>
    cases ps with
    | nil =>
      simp only [List.map_cons, List.map_nil]
      rw [py_join_single, py_join_single]
      exact strip_list_length_le p
    | cons q qs =>
      simp only [List.map_cons] at ih ⊢
      rw [py_join_cons_cons, py_join_cons_cons]
      simp only [List.length_append, List.length_cons]
      have h1 := strip_list_length_le p
      omega

lemma clean_text_length_le (s : List Char) :
    (clean_text s).length ≤ s.length := by
  rw [clean_text]
  split
  · simp
  · calc (strip_list (py_join '\n' ((py_split '\n'
          ((replace_crlf s).map (fun c => if c = '\r' then '\n' else c))).map strip_list))).length
        ≤ (py_join '\n' ((py_split '\n'
          ((replace_crlf s).map (fun c => if c = '\r' then '\n' else c))).map strip_list)).length :=
          strip_list_length_le _
      _ ≤ (py_join '\n' (py_split '\n'
          ((replace_crlf s).map (fun c => if c = '\r' then '\n' else c)))).length :=
          py_join_map_strip_length_le _ _
      _ = ((replace_crlf s).map (fun c => if c = '\r' then '\n' else c)).length := by
          rw [py_join_py_split]
      _ = (replace_crlf s).length := by simp
      _ ≤ s.length := replace_crlf_length_le s

/-! ### C5: the 50000-chunk safety bound -/

lemma chunk_loop_le_50001 (text : List Char) (cs ov mc : Nat) :
    ∀ fuel s acc out, acc.length ≤ 50000 →
      chunk_loop text cs ov mc fuel s acc = some out → out.length ≤ 50001 := by
  intro fuel
  induction fuel with
  | zero => intro s acc out _ h; cases h
  | succ fuel ih =>
    intro s acc out hacc h
    rw [chunk_loop] at h
    cases hstep : chunk_step text cs ov mc s acc with
    | done o =>
      rw [hstep] at h
      cases h
      have := chunk_step_done_len hstep
      omega
    | cont s' acc' =>
      rw [hstep] at h
      obtain ⟨_, _, _, h4, _⟩ := chunk_step_cont hstep
      exact ih s' acc' out (by omega) h

/-- **C5 (amended)** — Whenever the chunking loop returns, the returned
chunk list has at most **50001** elements: the safety check `len(chunks) >
50000` runs after the append, so the loop stops only once the 50001st chunk
has been emitted.  (The bound of 50000 claimed by the spec is exceeded by
exactly one: see the counterexample.  The check counts only *emitted*
chunks, so it does not by itself make the loop terminate on windows that
are never emitted.) -/
theorem chunkText_length_le_50001_amended (text : List Char)
    (cs ov mc fuel : Nat) (out : List (List Char))
    (h : chunk_text text cs ov mc fuel = some out) : out.length ≤ 50001 := by
  rw [chunk_text] at h
  split at h
  · cases h
    simp
  · exact chunk_loop_le_50001 (clean_text text) cs ov mc fuel 0 [] out (by simp) h

/-- Witness for `chunkText_length_le_50001_amended` on a concrete run. -/
theorem chunkText_length_le_50001_amended_witness :
    ([List.replicate 50 'a'] : List (List Char)).length ≤ 50001 :=
  chunkText_length_le_50001_amended (List.replicate 50 'a') 1200 200 40 1
    [List.replicate 50 'a'] (by decide)

/-! #### The 50001-chunk counterexample run -/

lemma replace_crlf_replicate_a :
    ∀ n, replace_crlf (List.replicate n 'a') = List.replicate n 'a'
  | 0 => rfl
  | 1 => rfl
  | n + 2 => by
    show replace_crlf ('a' :: 'a' :: List.replicate n 'a') = _
    rw [replace_crlf, if_neg (by decide)]
    rw [show ('a' : Char) :: List.replicate n 'a' = List.replicate (n + 1) 'a' from rfl]
    rw [replace_crlf_replicate_a (n + 1)]
    rfl

lemma py_split_replicate_a (n : Nat) :
    py_split '\n' (List.replicate n 'a') = [List.replicate n 'a'] := by
  induction n with
  | zero => rfl
  | succ n ih =>
    rw [List.replicate_succ, py_split]
    rw [if_neg (by decide)]
    rw [ih]

lemma strip_list_replicate_a (n : Nat) :
    strip_list (List.replicate n 'a') = List.replicate n 'a' := by
  have hdrop : (List.replicate n 'a').dropWhile isSpaceChar = List.replicate n 'a' := by
    cases n with
    | zero => rfl
    | succ n => rw [List.replicate_succ, List.dropWhile_cons, if_neg (by decide)]
  rw [strip_list, hdrop, List.reverse_replicate, hdrop, List.reverse_replicate]

lemma clean_text_replicate_a (n : Nat) :
    clean_text (List.replicate n 'a') = List.replicate n 'a' := by
  cases n with
  | zero => rfl
  | succ n =>
    rw [clean_text]
    rw [if_neg (by simp)]
    rw [replace_crlf_replicate_a]
    have hmap : (List.replicate (n + 1) 'a').map (fun c => if c = '\r' then '\n' else c)
        = List.replicate (n + 1) 'a' := by
      rw [List.map_replicate]
      simp
    rw [hmap]
    show strip_list (py_join '\n'
        (List.map strip_list (py_split '\n' (List.replicate (n + 1) 'a'))))
      = List.replicate (n + 1) 'a'
    rw [py_split_replicate_a, List.map_cons, List.map_nil,
        strip_list_replicate_a, py_join_single, strip_list_replicate_a]

lemma chunk_step_replicate (s : Nat) (acc : List (List Char))
    (hs : s + 1 < 50003) :
    chunk_step (List.replicate 50003 'a') 1 0 1 s acc =
      if 50000 < acc.length + 1 then .done (acc ++ [['a']])
      else .cont (s + 1) (acc ++ [['a']]) := by
  have hlen : (List.replicate 50003 'a' : List Char).length = 50003 :=
    List.length_replicate 50003 'a'
  have hwe : window_end (List.replicate 50003 'a') 1 s = s + 1 := by
    rw [window_end_eq_of_lt (by rw [hlen]; omega)]
    have hnl : rfind_from (List.replicate 50003 'a') '\n' s (s + 1) = none := by
      rw [rfind_from_eq_none]
      intro j h1 h2
      rw [getD_replicate _ _ _ _ (by omega)]
      decide
    have hsp : rfind_from (List.replicate 50003 'a') ' ' s (s + 1) = none := by
      rw [rfind_from_eq_none]
      intro j h1 h2
      rw [getD_replicate _ _ _ _ (by omega)]
      decide
    rw [hnl, hsp]
    rfl
  have hslice : py_slice (List.replicate 50003 'a') s (s + 1) = ['a'] := by
    rw [py_slice, List.take_replicate, List.drop_replicate]
    have h1 : (s + 1) ⊓ 50003 - s = 1 := by omega
    rw [h1]
    rfl
  have hemit : emit 1 acc (strip_list (py_slice (List.replicate 50003 'a') s (s + 1)))
      = acc ++ [['a']] := by
    rw [hslice]
    rw [show strip_list ['a'] = ['a'] from by decide]
    rw [emit, if_pos (by simp)]
  simp only [chunk_step, hlen, hwe, hemit]
  rw [if_pos (by omega : s < 50003), if_neg (by omega : ¬(50003 ≤ s + 1))]
  simp only [Nat.sub_zero, List.length_append, List.length_cons, List.length_nil]

lemma chunk_loop_replicate_run :
    ∀ (j s : Nat) (acc : List (List Char)) (fuel : Nat),
      acc.length + j = 50000 → s + j + 1 < 50003 → j + 1 ≤ fuel →
      chunk_loop (List.replicate 50003 'a') 1 0 1 fuel s acc
        = some (acc ++ List.replicate (j + 1) ['a']) := by
  intro j
  induction j with
  | zero =>
    intro s acc fuel hacc hs hfuel
    obtain ⟨f, rfl⟩ : ∃ f, fuel = f + 1 := ⟨fuel - 1, by omega⟩
    rw [chunk_loop, chunk_step_replicate s acc (by omega)]
    rw [if_pos (by omega)]
    simp
  | succ j ih =>
    intro s acc fuel hacc hs hfuel
    obtain ⟨f, rfl⟩ : ∃ f, fuel = f + 1 := ⟨fuel - 1, by omega⟩
    rw [chunk_loop, chunk_step_replicate s acc (by omega)]
    rw [if_neg (by omega)]
    simp only
    rw [ih (s + 1) (acc ++ [['a']]) f (by simp; omega) (by omega) (by omega)]
    simp [List.replicate_succ, List.append_assoc]

/-- **C5 (counterexample)** — On 50003 letters `a` with `chunk_size = 1`,
`overlap = 0`, `min_chunk_chars = 1`, the loop returns 50001 chunks: the
emitted-chunk cap is checked with `>` *after* the append, so the returned
list exceeds the claimed 50000-element bound. -/
theorem chunkText_50001_counterexample :
    chunk_text (List.replicate 50003 'a') 1 0 1 50002
      = some (List.replicate 50001 (['a'] : List Char))
    ∧ 50000 < (List.replicate 50001 (['a'] : List Char)).length := by
  constructor
  · rw [chunk_text]
    simp only [clean_text_replicate_a]
    rw [if_neg (by
      intro h
      have hlen := congrArg List.length h
      rw [List.length_replicate] at hlen
      simp at hlen)]
    have hrun := chunk_loop_replicate_run 50000 0 [] 50002 (by simp) (by omega) (by omega)
    rw [List.nil_append] at hrun
    exact hrun
  · rw [List.length_replicate]
    omega

/-! ### C9: short inputs produce no chunks -/

/-- **C9 (confirmed)** — For every text whose length is below
`min_chunk_chars`, `_chunk_text` returns the empty chunk list (at the
default parameters `min_chunk_chars = 40 ≤ chunk_size + 1 = 1201`; the
hypothesis `min_chunk_chars ≤ chunk_size + 1` makes the single window cover
the whole text).  In particular empty input yields the empty list. -/
theorem chunkText_short_input_empty (text : List Char) (cs ov mc fuel : Nat)
    (hf : 1 ≤ fuel) (hmc : mc ≤ cs + 1) (ht : text.length < mc) :
    chunk_text text cs ov mc fuel = some [] := by
  have hclean : (clean_text text).length ≤ text.length := clean_text_length_le text
  rw [chunk_text]
  split
  · rfl
  · rename_i hne
    obtain ⟨f, rfl⟩ : ∃ f, fuel = f + 1 := ⟨fuel - 1, by omega⟩
    have hn : 0 < (clean_text text).length := List.length_pos.mpr hne
    have hwe : window_end (clean_text text) cs 0 = (clean_text text).length :=
      window_end_eq_of_ge (by omega)
    have hslice : py_slice (clean_text text) 0 (clean_text text).length
        = clean_text text := by
      rw [py_slice, List.take_length, List.drop_zero]
    have hemit : emit mc [] (strip_list (py_slice (clean_text text) 0
        (clean_text text).length)) = [] := by
      rw [hslice, emit, if_neg]
      have := strip_list_length_le (clean_text text)
      omega
    rw [chunk_loop]
    have hstep : chunk_step (clean_text text) cs ov mc 0 [] = .done [] := by
      simp only [chunk_step, hwe, hemit]
      rw [if_pos hn, if_pos (le_refl _)]
    rw [hstep]

/-- Witness for `chunkText_short_input_empty` at the default parameters. -/
theorem chunkText_short_input_empty_witness :
    chunk_text "short sample text".toList 1200 200 40 1 = some [] :=
  chunkText_short_input_empty "short sample text".toList 1200 200 40 1
    (by omega) (by omega) (by decide)

/-! ### C10 and C6: `add_docs` -/

/-- **C10 (confirmed)** — `add_docs` with an empty chunk list returns 0 and
leaves the store completely unchanged: no collection is created or fetched,
no embedding is computed (`embedCount` is untouched) and no record is
written, because the guard `if not texts: return 0` runs before
`_get_collection` is ever called. -/
theorem addDocs_empty_noop (metadatas : Option (List Metadata))
    (name : List Char) (s : VSState) :
    add_docs [] metadatas name s = (0, s) := rfl

lemma find?_name_map_update (name : List Char) (recs : List StoredRecord) :
    ∀ l : List (List Char × List StoredRecord),
      (l.find? (fun p => p.1 = name)).isSome = true →
      (l.map (fun p => if p.1 = name then (p.1, recs) else p)).find?
          (fun p => p.1 = name) = some (name, recs) := by
  intro l
  induction l with
  | nil => intro h; simp [List.find?] at h
  | cons hd tl ih =>
    intro h
    by_cases hname : hd.1 = name
    · simp only [List.map_cons, if_pos hname]
      rw [List.find?_cons_of_pos _ (by simp [hname])]
      rw [hname]
    · simp only [List.map_cons, if_neg hname]
      rw [List.find?_cons_of_neg _ (by simp [hname])]
      apply ih
      rw [List.find?_cons_of_neg _ (by simp [hname])] at h
      exact h

lemma find?_append_of_none {α : Type} (p : α → Bool) (l1 l2 : List α)
    (h : l1.find? p = none) : (l1 ++ l2).find? p = l2.find? p := by
  induction l1 with
  | nil => simp
  | cons hd tl ih =>
    by_cases hp : p hd = true
    · rw [List.find?_cons_of_pos _ hp] at h; cases h
    · rw [List.find?_cons_of_neg _ (by simpa using hp)] at h
      rw [List.cons_append, List.find?_cons_of_neg _ (by simpa using hp)]
      exact ih h

lemma lookup_col_get_collection (s : VSState) (name : List Char) :
    lookup_col (get_collection s name) name = some (get_records s name) := by
  rw [get_collection]
  cases h : lookup_col s name with
  | some r =>
    rw [get_records, h]
    rfl
  | none =>
    rw [get_records, h]
    rw [lookup_col] at h ⊢
    cases hf : s.collections.find? (fun p => p.1 = name) with
    | some q => rw [hf] at h; cases h
    | none =>
      show ((s.collections ++ [(name, [])]).find?
            (fun p : List Char × List StoredRecord => p.1 = name)).map
          (fun p : List Char × List StoredRecord => p.2)
        = some ([] : List StoredRecord)
      rw [find?_append_of_none _ _ _ hf]
      rw [List.find?_cons_of_pos _ (by simp)]
      rfl

lemma get_records_get_collection (s : VSState) (name : List Char) :
    get_records (get_collection s name) name = get_records s name := by
  rw [get_records, lookup_col_get_collection]
  rfl

lemma get_records_set_records (s : VSState) (name : List Char)
    (recs : List StoredRecord) (h : (lookup_col s name).isSome = true) :
    get_records (set_records s name recs) name = recs := by
  have h' : (s.collections.find? (fun p => p.1 = name)).isSome = true := by
    rw [lookup_col] at h
    cases hf : s.collections.find? (fun p => p.1 = name) with
    | none => rw [hf] at h; cases h
    | some q => rfl
  rw [get_records, lookup_col, set_records]
  show (((s.collections.map (fun p => if p.1 = name then (p.1, recs) else p)).find?
      (fun p => p.1 = name)).map (fun p : List Char × List StoredRecord => p.2)).getD []
      = recs
  rw [find?_name_map_update name recs s.collections h']
  rfl

lemma add_docs_get_records (texts : List (List Char))
    (metadatas : Option (List Metadata)) (name : List Char) (s : VSState) :
    get_records (add_docs texts metadatas name s).2 name
      = get_records s name
        ++ mk_records s.nextId texts (pad_truncate metadatas texts.length) := by
  cases texts with
  | nil => simp [add_docs, mk_records]
  | cons t ts =>
    rw [add_docs, if_neg (by simp)]
    have hsome : (lookup_col (get_collection s name) name).isSome = true := by
      rw [lookup_col_get_collection]; rfl
    have hgr : get_records (set_records (get_collection s name) name
        (get_records (get_collection s name) name
          ++ mk_records s.nextId (t :: ts) (pad_truncate metadatas (t :: ts).length))) name
        = get_records (get_collection s name) name
          ++ mk_records s.nextId (t :: ts) (pad_truncate metadatas (t :: ts).length) :=
      get_records_set_records _ _ _ hsome
    simp only
    rw [show ∀ s2 : VSState, ∀ a b : Nat,
        get_records { s2 with nextId := a, embedCount := b } name = get_records s2 name
      from fun s2 a b => rfl]
    rw [hgr, get_records_get_collection]

lemma pad_truncate_length (metadatas : Option (List Metadata)) (n : Nat) :
    (pad_truncate metadatas n).length = n := by
  cases metadatas with
  | none => simp [pad_truncate]
  | some ms =>
    rw [pad_truncate]
    by_cases h1 : ms.length = n
    · rw [if_pos h1]; exact h1
    · rw [if_neg h1]
      by_cases h2 : ms.length < n
      · rw [if_pos h2]; simp; omega
      · rw [if_neg h2]; simp; omega

lemma mk_records_length :
    ∀ (i : Nat) (ts : List (List Char)) (ms : List Metadata),
      (mk_records i ts ms).length = min ts.length ms.length := by
  intro i ts
  induction ts generalizing i with
  | nil => intro ms; simp [mk_records]
  | cons t ts ih =>
    intro ms
    cases ms with
    | nil => simp [mk_records]
    | cons m ms =>
      rw [mk_records]
      simp only [List.length_cons, ih (i + 1) ms]
      omega

/-- **C6 (confirmed)** — For every non-empty chunk list and metadata list,
`add_docs`: pads a short metadata list with empty metadata up to the chunk
count, truncates a long one to the chunk count, never raises on a length
mismatch (the normalization and the append are total), returns the chunk
count, and appends exactly one record per chunk (with the normalized
metadata) to the collection. -/
theorem addDocs_pad_truncate_count (texts : List (List Char))
    (metas : List Metadata) (name : List Char) (s : VSState) (h : texts ≠ []) :
    (add_docs texts (some metas) name s).1 = texts.length
    ∧ (pad_truncate (some metas) texts.length).length = texts.length
    ∧ (metas.length < texts.length →
        pad_truncate (some metas) texts.length
          = metas ++ List.replicate (texts.length - metas.length) ({} : Metadata))
    ∧ (texts.length < metas.length →
        pad_truncate (some metas) texts.length = metas.take texts.length)
    ∧ get_records (add_docs texts (some metas) name s).2 name
        = get_records s name
          ++ mk_records s.nextId texts (pad_truncate (some metas) texts.length)
    ∧ (mk_records s.nextId texts (pad_truncate (some metas) texts.length)).length
        = texts.length := by
  obtain ⟨t, ts, rfl⟩ := List.exists_cons_of_ne_nil h
  refine ⟨?_, pad_truncate_length _ _, ?_, ?_, add_docs_get_records _ _ _ _, ?_⟩
  · rw [add_docs, if_neg (by simp)]
  · intro hlt
    rw [pad_truncate, if_neg (by omega), if_pos hlt]
  · intro hgt
    rw [pad_truncate, if_neg (by omega), if_neg (by omega)]
  · rw [mk_records_length, pad_truncate_length]
    omega

/-- Witness for `addDocs_pad_truncate_count` on a concrete store. -/
theorem addDocs_pad_truncate_count_witness :
    (add_docs [['x']] (some []) ['c'] ⟨[], 0, 0⟩).1 = ([['x']] : List (List Char)).length
    ∧ (pad_truncate (some []) ([['x']] : List (List Char)).length).length
        = ([['x']] : List (List Char)).length
    ∧ (([] : List Metadata).length < ([['x']] : List (List Char)).length →
        pad_truncate (some []) ([['x']] : List (List Char)).length
          = [] ++ List.replicate (([['x']] : List (List Char)).length
              - ([] : List Metadata).length) ({} : Metadata))
    ∧ (([['x']] : List (List Char)).length < ([] : List Metadata).length →
        pad_truncate (some []) ([['x']] : List (List Char)).length
          = ([] : List Metadata).take ([['x']] : List (List Char)).length)
    ∧ get_records (add_docs [['x']] (some []) ['c'] ⟨[], 0, 0⟩).2 ['c']
        = get_records ⟨[], 0, 0⟩ ['c']
          ++ mk_records (VSState.mk [] 0 0).nextId [['x']]
              (pad_truncate (some []) ([['x']] : List (List Char)).length)
    ∧ (mk_records (VSState.mk [] 0 0).nextId [['x']]
        (pad_truncate (some []) ([['x']] : List (List Char)).length)).length
        = ([['x']] : List (List Char)).length :=
  addDocs_pad_truncate_count [['x']] [] ['c'] ⟨[], 0, 0⟩ (by simp)

/-! ### C7: `_safe_decode` -/

/-- **C7 (confirmed)** — `_safe_decode` first attempts the tolerant UTF-8
decode; because `b.decode("utf-8", errors="ignore")` is total, that first
stage already succeeds on every input and the function returns its result —
in particular the decoder never fails and never raises, for every byte
string and *every* behaviour of the optional chardet stage (including its
absence or failure; had the first stage raised, the structure of
`safe_decode` falls back to the detected encoding and finally to the total
Latin-1 decode). -/
theorem safeDecode_total_utf8_first
    (chardet_stage : List Nat → Except Unit (List Char)) (b : List Nat) :
    safe_decode chardet_stage b = .ok (utf8_decode_ignore b) := rfl

/-! ### C8: the two-stage PDF extraction -/

/-- **C8 (confirmed)** — When the primary PyMuPDF extraction yields no text
at all: (1) if the pdfminer fallback also yields nothing and some page with
no selectable text carries embedded images (the likely-scanned flag), the
result is empty text with the note `"pdf likely scanned (no selectable
text)"` under the primary engine tag, returned without raising; (2) if the
fallback yields text, that (stripped) text is returned with the engine tag
`"pdfminer"`; and the likely-scanned note is distinct from the
fallback-parser note. -/
theorem extractPdf_scanned_and_fallback (mu : PyMuPdf) (pm : Option (List Char))
    (hempty : (read_pdf_pymupdf mu).1 = []) :
    ((read_pdf_pdfminer pm).1 = [] → (read_pdf_pymupdf mu).2.1 = true →
        (extract_pdf mu pm).1 = [] ∧ (extract_pdf mu pm).2.note = note_scanned
          ∧ (extract_pdf mu pm).2.engine = "pymupdf".toList)
    ∧ ((read_pdf_pdfminer pm).1 ≠ [] →
        (extract_pdf mu pm).1 = strip_list (read_pdf_pdfminer pm).1
          ∧ (extract_pdf mu pm).2.engine = "pdfminer".toList)
    ∧ note_scanned ≠ note_fallback := by
  refine ⟨?_, ?_, by decide⟩
  · intro hfb hscan
    simp [extract_pdf, hempty, hscan, hfb]
    rfl
  · intro hfb
    simp only [extract_pdf, hempty, ne_eq, not_true_eq_false, if_false, if_true]
    rw [if_pos (show ¬(read_pdf_pdfminer pm).1 = [] from hfb)]
    exact ⟨rfl, rfl⟩

/-- Witness for `extractPdf_scanned_and_fallback`: a one-page PDF with no
selectable text but with images, and an unavailable/empty pdfminer. -/
theorem extractPdf_scanned_and_fallback_witness :
    ((read_pdf_pdfminer none).1 = [] →
        (read_pdf_pymupdf (PyMuPdf.ok [⟨[], some true⟩])).2.1 = true →
        (extract_pdf (PyMuPdf.ok [⟨[], some true⟩]) none).1 = []
          ∧ (extract_pdf (PyMuPdf.ok [⟨[], some true⟩]) none).2.note = note_scanned
          ∧ (extract_pdf (PyMuPdf.ok [⟨[], some true⟩]) none).2.engine = "pymupdf".toList)
    ∧ ((read_pdf_pdfminer none).1 ≠ [] →
        (extract_pdf (PyMuPdf.ok [⟨[], some true⟩]) none).1
            = strip_list (read_pdf_pdfminer none).1
          ∧ (extract_pdf (PyMuPdf.ok [⟨[], some true⟩]) none).2.engine
            = "pdfminer".toList)
    ∧ note_scanned ≠ note_fallback :=
  extractPdf_scanned_and_fallback (PyMuPdf.ok [⟨[], some true⟩]) none (by decide)

/-! ### C4: `query` -/

/-- **C4 (amended)** — For every backend honouring the interface contract
(at most `n` results, aligned distance list, non-decreasing distances),
`query(collection, query_text, k)` requests `max(1, k)` results from the
backend, returns at most `max(1, k)` entries — not at most `k`: for `k ≤ 0`
one entry can come back, see the counterexample — and the returned entries
are ordered by non-decreasing distance. -/
theorem query_clamped_sorted_amended
    (backend : List Char → Nat → QueryResponse) (query_text : List Char) (k : Int)
    (hlen : ∀ q n, (backend q n).docs.length ≤ n)
    (halign : ∀ q n, (backend q n).dists.length = (backend q n).docs.length)
    (hsort : ∀ q n, List.Chain' (fun a b => a ≤ b) (backend q n).dists) :
    query backend query_text k = query_build (backend query_text (max 1 k).toNat)
    ∧ (query backend query_text k).length ≤ (max 1 k).toNat
    ∧ List.Chain' (fun a b => ∃ x y, a.distance = some x ∧ b.distance = some y ∧ x ≤ y)
        (query backend query_text k) := by
  refine ⟨rfl, ?_, ?_⟩
  · rw [query, query_build]
    simp only [List.length_map, List.length_range]
    exact hlen _ _
  · rw [query, query_build, List.chain'_map]
    have hd := halign query_text (max 1 k).toNat
    have hs := hsort query_text (max 1 k).toNat
    cases hn : (backend query_text (max 1 k).toNat).docs.length with
    | zero => simp
    | succ m =>
      rw [List.chain'_range_succ]
      intro i hi
      refine ⟨(backend query_text (max 1 k).toNat).dists.getD i 0,
        (backend query_text (max 1 k).toNat).dists.getD (i + 1) 0, ?_, ?_, ?_⟩
      · simp only
        rw [if_pos (by omega)]
      · simp only
        rw [if_pos (by omega)]
      · rw [List.chain'_iff_get] at hs
        have hrel := hs i (by omega)
        rw [List.getD_eq_getElem _ _ (by omega), List.getD_eq_getElem _ _ (by omega)]
        simpa [List.get_eq_getElem] using hrel

/-- **C4 (counterexample)** — `cex_backend` honours the interface contract
(at most `n` results, aligned, sorted), yet `query` with `k = 0` requests
`max(1, 0) = 1` result and returns 1 entry — more than `k = 0`. -/
theorem query_k_zero_counterexample : (query cex_backend [] 0).length = 1 := by
  decide

/-- Witness for `query_clamped_sorted_amended` at a concrete conforming
backend and `k = 3`. -/
theorem query_clamped_sorted_amended_witness :
    query cex_backend [] 3 = query_build (cex_backend [] (max 1 (3 : Int)).toNat)
    ∧ (query cex_backend [] 3).length ≤ (max 1 (3 : Int)).toNat
    ∧ List.Chain' (fun a b => ∃ x y, a.distance = some x ∧ b.distance = some y ∧ x ≤ y)
        (query cex_backend [] 3) :=
  query_clamped_sorted_amended cex_backend [] 3
    (fun q n => by
      cases n with
      | zero => simp [cex_backend]
      | succ m => simp [cex_backend])
    (fun q n => by
      cases n with
      | zero => simp [cex_backend]
      | succ m => simp [cex_backend])
    (fun q n => by
      cases n with
      | zero => simp [cex_backend]
      | succ m => simp [cex_backend])

/-! ### C1: `recent_chunks` after ingesting document A then document B -/

lemma mk_records_map_meta :
    ∀ (i : Nat) (ts : List (List Char)) (ms : List Metadata),
      ts.length = ms.length →
      (mk_records i ts ms).map (fun r => r.meta) = ms := by
  intro i ts
  induction ts generalizing i with
  | nil =>
    intro ms h
    cases ms with
    | nil => rfl
    | cons m ms => simp at h
  | cons t ts ih =>
    intro ms h
    cases ms with
    | nil => simp at h
    | cons m ms =>
      rw [mk_records, List.map_cons, ih (i + 1) ms (by simpa using h)]

lemma mk_records_map_doc :
    ∀ (i : Nat) (ts : List (List Char)) (ms : List Metadata),
      ts.length = ms.length →
      (mk_records i ts ms).map (fun r => r.doc) = ts := by
  intro i ts
  induction ts generalizing i with
  | nil =>
    intro ms h
    cases ms with
    | nil => rfl
    | cons m ms => simp at h
  | cons t ts ih =>
    intro ms h
    cases ms with
    | nil => simp at h
    | cons m ms =>
      rw [mk_records, List.map_cons, ih (i + 1) ms (by simpa using h)]

lemma ingest_metas_length (fn : List Char) (n : Nat) :
    (ingest_metas fn n).length = n := by
  rw [ingest_metas, List.length_map, List.length_range]

lemma pad_truncate_ingest (fn : List Char) (n : Nat) :
    pad_truncate (some (ingest_metas fn n)) n = ingest_metas fn n := by
  rw [pad_truncate, if_pos (ingest_metas_length fn n)]

lemma ingest_metas_filenames (fn : List Char) (n : Nat) :
    (ingest_metas fn n).map (fun m => m.filename.getD []) = List.replicate n fn := by
  rw [ingest_metas, List.map_map]
  rw [show ((fun m : Metadata => m.filename.getD [])
      ∘ (fun i : Nat => ({ filename := some fn, chunk := some i } : Metadata)))
    = Function.const Nat fn from rfl]
  rw [List.map_const, List.length_range]

lemma ingest_metas_mem_filename {fn : List Char} {n : Nat} {m : Metadata}
    (h : m ∈ ingest_metas fn n) : m.filename = some fn := by
  rw [ingest_metas] at h
  obtain ⟨i, _, rfl⟩ := List.mem_map.mp h
  rfl

lemma filterMap_eq_map_of {α β : Type} (f : α → Option β) (g : α → β) :
    ∀ l : List α, (∀ x ∈ l, f x = some (g x)) → l.filterMap f = l.map g := by
  intro l
  induction l with
  | nil => intro _; rfl
  | cons a t ih =>
    intro h
    rw [List.map_cons, List.filterMap_cons, h a (by simp)]
    rw [ih (fun x hx => h x (by simp [hx]))]

lemma insert_hit_of_le (x y : Hit) (ys : List Hit) (h : hit_key x ≤ hit_key y) :
    insert_hit x (y :: ys) = x :: y :: ys := by
  rw [insert_hit, if_pos h]

lemma sort_hits_sorted_id : ∀ l : List Hit,
    List.Chain' (fun a b => hit_key a ≤ hit_key b) l → sort_hits l = l := by
  intro l
  induction l with
  | nil => intro _; rfl
  | cons x xs ih =>
    intro h
    rw [sort_hits, ih h.tail]
    cases xs with
    | nil => rfl
    | cons y ys => exact insert_hit_of_le x y ys (List.chain'_cons.mp h).1

lemma chain'_fst_le_enumFrom {α : Type} :
    ∀ (l : List α) (off : Nat),
      List.Chain' (fun p q : Nat × α => p.1 ≤ q.1) (List.enumFrom off l) := by
  intro l
  induction l with
  | nil => intro off; exact List.chain'_nil
  | cons a t ih =>
    intro off
    cases t with
    | nil => exact List.chain'_singleton _
    | cons b t2 =>
      rw [List.enumFrom, List.enumFrom, List.chain'_cons]
      refine ⟨by omega, ?_⟩
      have := ih (off + 1)
      rw [List.enumFrom] at this
      exact this

lemma isEmpty_false_of_ne_nil {α : Type} {l : List α} (h : l ≠ []) :
    l.isEmpty = false := by
  cases l with
  | nil => exact absurd rfl h
  | cons a t => rfl

lemma last_filename (fnA fnB : List Char) (na m : Nat) (hfnB : fnB ≠ []) :
    ((List.replicate na fnA ++ List.replicate (m + 1) fnB).reverse.find?
        (fun fn => !fn.isEmpty)).getD
      ((List.replicate na fnA ++ List.replicate (m + 1) fnB).getLastD []) = fnB := by
  rw [List.reverse_append, List.reverse_replicate, List.reverse_replicate]
  rw [List.replicate_succ, List.cons_append]
  rw [List.find?_cons_of_pos _ (by rw [isEmpty_false_of_ne_nil hfnB]; rfl)]
  rfl

lemma recent_chunks_two (A B : List (List Char)) (fnA fnB : List Char)
    (i j : Nat) (hB : B ≠ []) (hfnB : fnB ≠ []) (hne : fnA ≠ fnB) (k : Int) :
    recent_chunks
        (mk_records i A (ingest_metas fnA A.length)
          ++ mk_records j B (ingest_metas fnB B.length)) k
      = (B.enum.map (fun p =>
          ({ text := p.2, metadata := { filename := some fnB, chunk := some p.1 } } : Hit))).take
          (max 1 k).toNat := by
  obtain ⟨m, hm⟩ : ∃ m, B.length = m + 1 := by
    cases hl : B.length with
    | zero => exact absurd (List.length_eq_zero.mp hl) hB
    | succ m => exact ⟨m, rfl⟩
  have hlenA : A.length = (ingest_metas fnA A.length).length :=
    (ingest_metas_length fnA A.length).symm
  have hlenB : B.length = (ingest_metas fnB B.length).length :=
    (ingest_metas_length fnB B.length).symm
  have hmetas : (mk_records i A (ingest_metas fnA A.length)
        ++ mk_records j B (ingest_metas fnB B.length)).map (fun r => r.meta)
      = ingest_metas fnA A.length ++ ingest_metas fnB B.length := by
    rw [List.map_append, mk_records_map_meta i A _ hlenA,
      mk_records_map_meta j B _ hlenB]
  have hdocs : (mk_records i A (ingest_metas fnA A.length)
        ++ mk_records j B (ingest_metas fnB B.length)).map (fun r => r.doc)
      = A ++ B := by
    rw [List.map_append, mk_records_map_doc i A _ hlenA,
      mk_records_map_doc j B _ hlenB]
  have hBne : A ++ B ≠ [] := by
    intro h
    exact hB (List.append_eq_nil.mp h).2
  have hMne : ingest_metas fnA A.length ++ ingest_metas fnB B.length ≠ [] := by
    intro h
    have h2 := (List.append_eq_nil.mp h).2
    have h3 := congrArg List.length h2
    rw [ingest_metas_length] at h3
    exact hB (List.length_eq_zero.mp h3)
  have hfilenames : (ingest_metas fnA A.length ++ ingest_metas fnB B.length).map
        (fun m2 => m2.filename.getD [])
      = List.replicate A.length fnA ++ List.replicate (m + 1) fnB := by
    rw [List.map_append, ingest_metas_filenames, ingest_metas_filenames, hm]
  have hnilA : ((ingest_metas fnA A.length).zip A).filterMap
        (fun md => if md.1.filename = some fnB
          then some ({ text := md.2, metadata := md.1 } : Hit) else none)
      = [] := by
    rw [List.filterMap_eq_nil_iff]
    intro md hmd
    have hmem := (List.of_mem_zip hmd).1
    rw [if_neg]
    rw [ingest_metas_mem_filename hmem]
    intro hcontra
    exact hne (Option.some.inj hcontra)
  have hmapB : ((ingest_metas fnB B.length).zip B).filterMap
        (fun md => if md.1.filename = some fnB
          then some ({ text := md.2, metadata := md.1 } : Hit) else none)
      = B.enum.map (fun p =>
          ({ text := p.2, metadata := { filename := some fnB, chunk := some p.1 } } : Hit)) := by
    rw [filterMap_eq_map_of _ (fun md => ({ text := md.2, metadata := md.1 } : Hit))]
    · rw [ingest_metas, List.zip_map_left, List.map_map, ← List.enum_eq_zip_range]
      rfl
    · intro md hmd
      rw [if_pos (ingest_metas_mem_filename (List.of_mem_zip hmd).1)]
  have hchain : List.Chain' (fun a b => hit_key a ≤ hit_key b)
      (B.enum.map (fun p =>
        ({ text := p.2, metadata := { filename := some fnB, chunk := some p.1 } } : Hit))) := by
    rw [List.chain'_map]
    exact List.Chain'.imp (fun p q hpq => hpq) (chain'_fst_le_enumFrom B 0)
  simp only [recent_chunks]
  rw [hmetas, hdocs]
  rw [isEmpty_false_of_ne_nil hMne, isEmpty_false_of_ne_nil hBne]
  simp only [Bool.or_self, Bool.false_eq_true, if_false]
  rw [hfilenames, last_filename fnA fnB A.length m hfnB]
  rw [List.zip_append hlenA.symm, List.filterMap_append, hnilA, hmapB,
    List.nil_append]
  rw [sort_hits_sorted_id _ hchain]

/-- **C1 (amended)** — Ingesting document A's chunks and then document B's
chunks (each chunk carrying `{filename, chunk ordinal}` metadata, the two
documents bearing distinct filenames and B's filename non-empty) into an
initially empty collection makes `recent_chunks(k)` return exactly B's
chunks in ascending ordinal order, truncated to the first **max(1, k)** —
not the first `k`: the code takes `hits[:max(1, int(k))]`, so `k = 0` still
returns one chunk (see the counterexample). -/
theorem recentChunks_returns_last_doc_sorted_take_clamped
    (s0 : VSState) (c fnA fnB : List Char) (A B : List (List Char)) (k : Int)
    (h0 : get_records s0 c = [])
    (hB : B ≠ []) (hfnB : fnB ≠ []) (hne : fnA ≠ fnB) :
    recent_chunks (get_records
        (add_docs B (some (ingest_metas fnB B.length)) c
          (add_docs A (some (ingest_metas fnA A.length)) c s0).2).2 c) k
      = (B.enum.map (fun p =>
          ({ text := p.2, metadata := { filename := some fnB, chunk := some p.1 } } : Hit))).take
          (max 1 k).toNat := by
  rw [add_docs_get_records, add_docs_get_records, h0, List.nil_append]
  rw [pad_truncate_ingest, pad_truncate_ingest]
  exact recent_chunks_two A B fnA fnB _ _ hB hfnB hne k

/-- Witness for `recentChunks_returns_last_doc_sorted_take_clamped` on a
concrete two-document store. -/
theorem recentChunks_returns_last_doc_sorted_take_clamped_witness :
    recent_chunks (get_records
        (add_docs [['y'], ['z']] (some (ingest_metas ['b'] ([['y'], ['z']] : List (List Char)).length)) ['d']
          (add_docs [['x']] (some (ingest_metas ['a'] ([['x']] : List (List Char)).length)) ['d']
            ⟨[], 0, 0⟩).2).2 ['d']) 1
      = (([['y'], ['z']] : List (List Char)).enum.map (fun p =>
          ({ text := p.2, metadata := { filename := some ['b'], chunk := some p.1 } } : Hit))).take
          (max 1 (1 : Int)).toNat :=
  recentChunks_returns_last_doc_sorted_take_clamped ⟨[], 0, 0⟩ ['d'] ['a'] ['b']
    [['x']] [['y'], ['z']] 1 (by decide) (by decide) (by decide) (by decide)

/-- **C1 (counterexample)** — On the two-document store `c1_state`
(document `a.txt` then document `b.txt`, one chunk each), `recent_chunks`
with `k = 0` returns **one** hit, not the "first `k` = 0" chunks the claim
requires: the code truncates to `max(1, int(k))`. -/
theorem recentChunks_k_zero_counterexample :
    (recent_chunks (get_records c1_state "docs".toList) 0).length = 1 := by
  decide

end LocalGpt
